import Mathlib

/-!
Verification of the grayscale conversion pipeline of
`Greyscale_Inverter/src/main.py` (class `ImageConverter`).

The numeric core (`update_grayscale`) is embedded over the exact
rationals: the source computes with IEEE double precision via numpy,
and `np.round` uses the round-half-to-even convention, which is the
convention the specification pins.  `astype(np.uint8)` truncates the
(always nonnegative, in-range) float toward zero, which on the values
arising here is the floor, reduced mod 256.
-/

namespace GrayInv

/-- Round half to even on the rationals: the convention of `np.round`. -/
def rndNE (q : ℚ) : ℤ :=
  let f : ℤ := ⌊q⌋
  let frac : ℚ := q - f
  if frac < 1/2 then f
  else if 1/2 < frac then f + 1
  else if f % 2 = 0 then f else f + 1

/-- Truncation toward zero of a rational, as a float-to-integer cast does. -/
def truncQ (q : ℚ) : ℤ :=
  if 0 ≤ q then ⌊q⌋ else -⌊-q⌋

/-- The luma of one packed pixel, from the source line
`gray = np.dot(arr[..., :3], [0.299, 0.587, 0.114])`. -/
def luma (r g b : ℕ) : ℚ :=
  0.299 * r + 0.587 * g + 0.114 * b

/-- Quantization of one pixel, from the source lines
`levels = 2 ** self.bits`,
`gray_quant = np.round(gray / 255 * (levels - 1)) * (255 / (levels - 1))`,
`gray_quant = gray_quant.astype(np.uint8)`.
The final `astype(np.uint8)` is a float-to-byte cast: truncation toward
zero, reduced mod 256.  Faithful for `1 ≤ bits`; at `bits = 0` the
source raises `ZeroDivisionError` (the factor `255 / (levels - 1)` is
pure-Python `255 / 0`), an error path total rational division cannot
express, so no theorem instantiates this definition at `bits = 0`. -/
def quantizePixel (bits : ℕ) (r g b : ℕ) : ℕ :=
  let levels : ℕ := 2 ^ bits
  let step : ℤ := rndNE (luma r g b / 255 * ((levels : ℚ) - 1))
  (Int.toNat (truncQ ((step : ℚ) * (255 / ((levels : ℚ) - 1))))) % 256

/-- Elementwise quantization of a packed pixel list (the numpy
operations act on the whole array at once). -/
def quantizeImage (bits : ℕ) (pixels : List (ℕ × ℕ × ℕ)) : List ℕ :=
  pixels.map (fun p => quantizePixel bits p.1 p.2.1 p.2.2)

/-- Round half to even of the fraction `p / q` (`q` positive), in pure
integer arithmetic; proven to agree with `rndNE` below.  Used so that
concrete values of the pipeline can be computed by `decide`. -/
def rndNEInt (p : ℤ) (q : ℕ) : ℤ :=
  let f : ℤ := p / q
  let r : ℤ := p - f * q
  if 2 * r < (q : ℤ) then f
  else if (q : ℤ) < 2 * r then f + 1
  else if f % 2 = 0 then f else f + 1

/-- Integer-arithmetic mirror of `quantizePixel` (for `1 ≤ bits`), used
for exhaustive finite checks; `quantizePixel_eq_Z` proves agreement. -/
def quantizePixelZ (bits r g b : ℕ) : ℕ :=
  let d : ℕ := 2 ^ bits - 1
  let n : ℕ := 299 * r + 587 * g + 114 * b
  let s : ℤ := rndNEInt ((n * d : ℕ) : ℤ) 255000
  (Int.toNat ((s * 255) / (d : ℤ))) % 256

/-- Keep the first three bytes of each four-byte pixel group, from the
source line `arr = arr[..., :3]` applied to shape `(height, width, 4)`. -/
def dropAlpha : List ℕ → List ℕ
  | b0 :: b1 :: b2 :: _ :: rest => b0 :: b1 :: b2 :: dropAlpha rest
  | l => l

/-- Raw-buffer unpacking, from the source lines
`arr = np.frombuffer(ptr, np.uint8).reshape((height, bytes_per_line))`,
`arr = arr[:, :width * channels]`,
`arr = arr.reshape((height, width, channels))`, and
`if channels == 4: arr = arr[..., :3]`.  Row `r` of the reshaped matrix
is the `stride`-byte slice of `raw` starting at `r * stride`; the column
slice keeps its first `width * channels` bytes. -/
def unpack (raw : List ℕ) (width height stride channels : ℕ) : List ℕ :=
  let rows := (List.range height).map (fun r => (raw.drop (r * stride)).take stride)
  let trimmed := rows.map (fun row => row.take (width * channels))
  let rgbRows := if channels = 4 then trimmed.map dropAlpha else trimmed
  rgbRows.flatten

/-- Group a packed RGB byte list into pixel triples, as the source's
`arr.reshape((height, width, channels))` view presents it to `np.dot`. -/
def toPixels : List ℕ → List (ℕ × ℕ × ℕ)
  | r :: g :: b :: rest => (r, g, b) :: toPixels rest
  | _ => []

/-- A decoded source image as `update_grayscale` reads it from the Qt
image object: dimensions, `bytesPerLine` stride, channel count derived
from the pixel format, and the raw byte buffer. -/
structure SourceImage where
  width : ℕ
  height : ℕ
  stride : ℕ
  channels : ℕ
  raw : List ℕ

/-- The body of `update_grayscale`: unpack the raw buffer and quantize
every pixel, producing the packed grayscale byte buffer. -/
def updateGrayscale (img : SourceImage) (bits : ℕ) : List ℕ :=
  quantizeImage bits
    (toPixels (unpack img.raw img.width img.height img.stride img.channels))

/-- The mutable widget state of `ImageConverter` that `load_image`
touches: `self.original_image`, `self.gray_image`, `self.file_path`,
and `self.bits`. -/
structure AppState where
  original_image : Option SourceImage
  gray_image : Option (List ℕ)
  file_path : Option String
  bits : ℕ

/-- `load_image`, given the decode result of `QImage(file_path)`
(`none` models `img.isNull()`): on failure it shows a warning and
returns; on success it assigns `self.file_path`, `self.original_image`,
and recomputes `self.gray_image` via `update_grayscale`.  The returned
flag records whether the failure warning was shown. -/
def loadImage (s : AppState) (path : String) (decoded : Option SourceImage) :
    AppState × Bool :=
  match decoded with
  | none => (s, true)
  | some img =>
      ({ s with
          file_path := some path
          original_image := some img
          gray_image := some (updateGrayscale img s.bits) }, false)

/-- The per-pixel quantization formula as claim C1 words it: the step
is rounded half-to-even, the rescaled value is again rounded
half-to-even, and the result is clamped to `[0, 255]`.  Stated for
comparison with the code's `quantizePixel`. -/
def quantizeClaimRounded (bits r g b : ℕ) : ℕ :=
  let levels : ℕ := 2 ^ bits
  let step : ℤ := rndNE (luma r g b / 255 * ((levels : ℚ) - 1))
  Int.toNat (max 0 (min 255 (rndNE ((step : ℚ) * (255 / ((levels : ℚ) - 1))))))

/-- The amended per-pixel formula: the step is rounded half-to-even,
but the rescaled value is truncated toward zero (the `astype(np.uint8)`
cast), then clamped to `[0, 255]`. -/
def quantizeClaimTrunc (bits r g b : ℕ) : ℕ :=
  let levels : ℕ := 2 ^ bits
  let step : ℤ := rndNE (luma r g b / 255 * ((levels : ℚ) - 1))
  Int.toNat (max 0 (min 255 (truncQ ((step : ℚ) * (255 / ((levels : ℚ) - 1))))))

/-- Modelled from the spec: section 4.2's defensive `levels == 1`
special case (`quantized = 0` for all pixels).  The code has no such
branch — it divides by `levels - 1` unguarded — so the guarded variant
exists only to state that the branch would be unreachable for
`bits ≥ 1`. -/
def quantizeGuarded (bits r g b : ℕ) : ℕ :=
  let levels : ℕ := 2 ^ bits
  if levels = 1 then 0 else quantizePixel bits r g b

/-! ### List facts supporting the unpack model -/

theorem dropAlpha_length : ∀ (w : ℕ) (l : List ℕ), l.length = 4 * w →
    (dropAlpha l).length = 3 * w := by
  intro w
  induction w with
  | zero =>
      intro l hl
      have : l = [] := List.eq_nil_of_length_eq_zero hl
      subst this
      rfl
  | succ w ih =>
      intro l hl
      match l with
      | b0 :: b1 :: b2 :: b3 :: rest =>
          have hrest : rest.length = 4 * w := by
            simp only [List.length_cons] at hl
            omega
          have := ih rest hrest
          simp only [dropAlpha, List.length_cons, this]
          omega
      | [] => simp only [List.length_nil] at hl; omega
      | [b0] => simp only [List.length_cons, List.length_nil] at hl; omega
      | [b0, b1] => simp only [List.length_cons, List.length_nil] at hl; omega
      | [b0, b1, b2] => simp only [List.length_cons, List.length_nil] at hl; omega

theorem dropAlpha_getElem? : ∀ (c : ℕ) (l : List ℕ) (k : ℕ), k < 3 →
    (dropAlpha l)[3 * c + k]? = l[4 * c + k]? := by
  intro c
  induction c with
  | zero =>
      intro l k hk
      match l with
      | b0 :: b1 :: b2 :: b3 :: rest =>
          simp only [dropAlpha]
          interval_cases k <;> simp
      | [] => rfl
      | [b0] => rfl
      | [b0, b1] => rfl
      | [b0, b1, b2] => rfl
  | succ c ih =>
      intro l k hk
      match l with
      | b0 :: b1 :: b2 :: b3 :: rest =>
          rw [show 3 * (c + 1) + k = (3 * c + k) + 1 + 1 + 1 by ring,
            show 4 * (c + 1) + k = (4 * c + k) + 1 + 1 + 1 + 1 by ring]
          simp only [dropAlpha, List.getElem?_cons_succ]
          exact ih rest k hk
      | [] => rfl
      | [b0] =>
          simp only [dropAlpha]
          rw [List.getElem?_eq_none, List.getElem?_eq_none] <;> simp <;> omega
      | [b0, b1] =>
          simp only [dropAlpha]
          rw [List.getElem?_eq_none, List.getElem?_eq_none] <;> simp <;> omega
      | [b0, b1, b2] =>
          simp only [dropAlpha]
          rw [List.getElem?_eq_none, List.getElem?_eq_none] <;> simp <;> omega

theorem flatten_length_uniform (rows : List (List ℕ)) (n : ℕ)
    (huni : ∀ row ∈ rows, row.length = n) :
    rows.flatten.length = rows.length * n := by
  induction rows with
  | nil => simp
  | cons row rest ih =>
      have hrow : row.length = n := huni row (by simp)
      have hrest := ih (fun q hq => huni q (by simp [hq]))
      simp only [List.flatten_cons, List.length_append, List.length_cons, hrow, hrest]
      ring

theorem flatten_getElem?_uniform (rows : List (List ℕ)) (n : ℕ)
    (huni : ∀ row ∈ rows, row.length = n) :
    ∀ (i j : ℕ), j < n →
      rows.flatten[i * n + j]? = (rows[i]?.bind (fun row => row[j]?)) := by
  induction rows with
  | nil => intro i j hj; simp
  | cons row rest ih =>
      intro i j hj
      have hrow : row.length = n := huni row (by simp)
      match i with
      | 0 =>
          simp only [List.flatten_cons, Nat.zero_mul, Nat.zero_add,
            List.getElem?_cons_zero, Option.bind]
          rw [List.getElem?_append, if_pos (by omega)]
      | i + 1 =>
          have harith : (i + 1) * n + j = row.length + (i * n + j) := by
            rw [hrow]; ring
          simp only [List.flatten_cons, List.getElem?_cons_succ]
          rw [harith, List.getElem?_append_right (by omega)]
          have : row.length + (i * n + j) - row.length = i * n + j := by omega
          rw [this]
          exact ih (fun q hq => huni q (by simp [hq])) i j hj

/-- The bytes that row `r` of the unpacked output is built from:
the `width * channels` bytes starting at `r * stride`, with alpha
dropped when there are four channels. -/
def pieceAt (raw : List ℕ) (w s ch r : ℕ) : List ℕ :=
  (if ch = 4 then dropAlpha else id) ((raw.drop (r * s)).take (w * ch))

theorem unpack_eq_flatten_pieces (raw : List ℕ) (w h s ch : ℕ)
    (hws : w * ch ≤ s) :
    unpack raw w h s ch = ((List.range h).map (pieceAt raw w s ch)).flatten := by
  unfold unpack pieceAt
  by_cases hch : ch = 4
  · subst hch
    simp only [if_pos rfl, List.map_map]
    congr 1
    apply List.map_congr_left
    intro r hr
    simp only [Function.comp_apply]
    rw [List.take_take, min_eq_left hws]
    simp
  · simp only [if_neg hch, List.map_map]
    congr 1
    apply List.map_congr_left
    intro r hr
    simp only [Function.comp_apply, id]
    rw [List.take_take, min_eq_left hws]

theorem pieceAt_length (raw : List ℕ) (w h s ch r : ℕ)
    (hraw : h * s ≤ raw.length) (hws : w * ch ≤ s)
    (hch : ch = 3 ∨ ch = 4) (hr : r < h) :
    (pieceAt raw w s ch r).length = 3 * w := by
  have h1 : (r + 1) * s ≤ h * s := Nat.mul_le_mul_right s (by omega)
  have h2 : (r + 1) * s = r * s + s := by ring
  have hbase : ((raw.drop (r * s)).take (w * ch)).length = w * ch := by
    rw [List.length_take, List.length_drop]
    omega
  unfold pieceAt
  rcases hch with hch | hch
  · subst hch
    simp only [if_neg (by norm_num : (3 : ℕ) ≠ 4), id]
    omega
  · subst hch
    rw [if_pos rfl]
    exact dropAlpha_length w _ (by omega)

theorem unpack_length (raw : List ℕ) (w h s ch : ℕ)
    (hraw : h * s ≤ raw.length) (hws : w * ch ≤ s)
    (hch : ch = 3 ∨ ch = 4) :
    (unpack raw w h s ch).length = h * w * 3 := by
  rw [unpack_eq_flatten_pieces raw w h s ch hws]
  rw [flatten_length_uniform _ (3 * w)]
  · simp only [List.length_map, List.length_range]
    ring
  · intro row hrow
    rw [List.mem_map] at hrow
    obtain ⟨r, hr, hrw⟩ := hrow
    rw [List.mem_range] at hr
    rw [← hrw]
    exact pieceAt_length raw w h s ch r hraw hws hch hr

theorem unpack_getElem? (raw : List ℕ) (w h s ch r c k : ℕ)
    (hraw : h * s ≤ raw.length) (hws : w * ch ≤ s)
    (hch : ch = 3 ∨ ch = 4) (hr : r < h) (hc : c < w) (hk : k < 3) :
    (unpack raw w h s ch)[(r * w + c) * 3 + k]? = raw[r * s + c * ch + k]? := by
  rw [unpack_eq_flatten_pieces raw w h s ch hws]
  have hidx : (r * w + c) * 3 + k = r * (3 * w) + (3 * c + k) := by ring
  rw [hidx]
  rw [flatten_getElem?_uniform _ (3 * w) ?uni r (3 * c + k) (by omega)]
  case uni =>
    intro row hrow
    rw [List.mem_map] at hrow
    obtain ⟨i, hi, hiw⟩ := hrow
    rw [List.mem_range] at hi
    rw [← hiw]
    exact pieceAt_length raw w h s ch i hraw hws hch hi
  rw [List.getElem?_map, List.getElem?_range hr]
  dsimp only [Option.map, Option.bind]
  have h1 : (r + 1) * s ≤ h * s := Nat.mul_le_mul_right s (by omega)
  have h2 : (r + 1) * s = r * s + s := by ring
  unfold pieceAt
  rcases hch with hch | hch
  · subst hch
    simp only [if_neg (by norm_num : (3 : ℕ) ≠ 4), id]
    rw [List.getElem?_take, if_pos (by omega), List.getElem?_drop]
    congr 1
    ring
  · subst hch
    rw [if_pos rfl, dropAlpha_getElem? c _ k hk]
    rw [List.getElem?_take, if_pos (by omega), List.getElem?_drop]
    congr 1
    ring

/-! ### Basic facts about round-half-to-even -/

theorem rndNE_le (q : ℚ) : (rndNE q : ℚ) ≤ q + 1/2 := by
  simp only [rndNE]
  have h0 : (⌊q⌋ : ℚ) ≤ q := Int.floor_le q
  split_ifs with h1 h2 h3
  · linarith
  · push_cast
    linarith
  · linarith
  · push_cast
    have : q - (⌊q⌋ : ℚ) = 1/2 := le_antisymm (not_lt.1 h2) (not_lt.1 h1)
    linarith

theorem le_rndNE (q : ℚ) : q - 1/2 ≤ (rndNE q : ℚ) := by
  simp only [rndNE]
  have h0 : q < ⌊q⌋ + 1 := Int.lt_floor_add_one q
  split_ifs with h1 h2 h3
  · linarith
  · push_cast
    linarith
  · have : q - (⌊q⌋ : ℚ) = 1/2 := le_antisymm (not_lt.1 h2) (not_lt.1 h1)
    linarith
  · push_cast
    linarith

theorem rndNE_intCast (n : ℤ) : rndNE (n : ℚ) = n := by
  simp only [rndNE]
  rw [Int.floor_intCast]
  norm_num

theorem rndNE_nonneg {q : ℚ} (h : 0 ≤ q) : 0 ≤ rndNE q := by
  by_contra hneg
  push_neg at hneg
  have h1 : rndNE q ≤ -1 := by omega
  have h2 : (rndNE q : ℚ) ≤ -1 := by exact_mod_cast h1
  have := le_rndNE q
  linarith

theorem rndNE_le_of_le {q : ℚ} {m : ℤ} (h : q ≤ (m : ℚ)) : rndNE q ≤ m := by
  by_contra hgt
  push_neg at hgt
  have h1 : m + 1 ≤ rndNE q := by omega
  have h2 : ((m : ℚ) + 1) ≤ (rndNE q : ℚ) := by exact_mod_cast h1
  have := rndNE_le q
  linarith

theorem intCast_div_lt_half {x : ℤ} {q : ℕ} (hq : 0 < q) :
    ((x : ℚ) / (q : ℚ) < 1/2) ↔ (2 * x < (q : ℤ)) := by
  rw [div_lt_div_iff₀ (by exact_mod_cast hq) (by norm_num : (0:ℚ) < 2), one_mul,
    mul_comm]
  exact_mod_cast Iff.rfl

theorem half_lt_intCast_div {x : ℤ} {q : ℕ} (hq : 0 < q) :
    (1/2 < (x : ℚ) / (q : ℚ)) ↔ ((q : ℤ) < 2 * x) := by
  rw [div_lt_div_iff₀ (by norm_num : (0:ℚ) < 2) (by exact_mod_cast hq), one_mul,
    mul_comm]
  exact_mod_cast Iff.rfl

/-- The exact rational round-half-to-even of an integer fraction agrees
with its pure integer-arithmetic computation. -/
theorem rndNE_intCast_div_natCast (p : ℤ) (q : ℕ) (hq : 0 < q) :
    rndNE ((p : ℚ) / (q : ℚ)) = rndNEInt p q := by
  have hq0 : (0:ℚ) < (q:ℚ) := by exact_mod_cast hq
  have hfl : ⌊(p : ℚ) / (q : ℚ)⌋ = p / (q:ℤ) := Rat.floor_intCast_div_natCast p q
  have hfrac : (p : ℚ)/(q:ℚ) - ((p / (q:ℤ) : ℤ) : ℚ)
      = ((p - p / (q:ℤ) * (q:ℤ) : ℤ) : ℚ) / (q:ℚ) := by
    push_cast
    field_simp
    ring
  simp only [rndNE, rndNEInt, hfl, hfrac, intCast_div_lt_half hq,
    half_lt_intCast_div hq]

/-- The exact rational pipeline agrees with its integer-arithmetic
mirror whenever at least one quantization bit is used. -/
theorem quantizePixel_eq_Z (bits r g b : ℕ) (hb : 1 ≤ bits) :
    quantizePixel bits r g b = quantizePixelZ bits r g b := by
  have hL : 1 ≤ 2 ^ bits := Nat.one_le_two_pow
  have hd : 0 < 2 ^ bits - 1 := by
    have h2 : 2 ≤ 2 ^ bits := by
      calc 2 = 2 ^ 1 := rfl
        _ ≤ 2 ^ bits := Nat.pow_le_pow_right (by norm_num) hb
    omega
  have hcast : ((2 ^ bits : ℕ) : ℚ) - 1 = ((2 ^ bits - 1 : ℕ) : ℚ) := by
    rw [Nat.cast_sub hL]
    norm_num
  have harg : luma r g b / 255 * (((2 ^ bits : ℕ) : ℚ) - 1)
      = ((((299*r + 587*g + 114*b) * (2 ^ bits - 1) : ℕ) : ℤ) : ℚ)
        / ((255000 : ℕ) : ℚ) := by
    unfold luma
    rw [hcast]
    push_cast
    norm_num
    ring
  have hstep : rndNE (luma r g b / 255 * (((2 ^ bits : ℕ) : ℚ) - 1))
      = rndNEInt ((((299*r + 587*g + 114*b) * (2 ^ bits - 1) : ℕ)) : ℤ) 255000 := by
    rw [harg]
    exact rndNE_intCast_div_natCast _ _ (by norm_num)
  have hs0 : 0 ≤ rndNEInt ((((299*r + 587*g + 114*b) * (2 ^ bits - 1) : ℕ)) : ℤ) 255000 := by
    rw [← hstep]
    apply rndNE_nonneg
    rw [harg]
    positivity
  simp only [quantizePixel, quantizePixelZ, hstep]
  congr 1
  congr 1
  set s := rndNEInt ((((299*r + 587*g + 114*b) * (2 ^ bits - 1) : ℕ)) : ℤ) 255000 with hs
  have hinner : (s : ℚ) * (255 / (((2 ^ bits : ℕ) : ℚ) - 1))
      = ((s * 255 : ℤ) : ℚ) / ((2 ^ bits - 1 : ℕ) : ℚ) := by
    rw [hcast]
    push_cast
    ring
  rw [hinner]
  unfold truncQ
  rw [if_pos (by positivity)]
  exact Rat.floor_intCast_div_natCast _ _

/-! ### Range and shape facts about the quantizer -/

theorem two_le_pow_cast {bits : ℕ} (h1 : 1 ≤ bits) :
    (2:ℚ) ≤ ((2 ^ bits : ℕ) : ℚ) := by
  have h : (2:ℕ) ≤ 2 ^ bits := by
    calc (2:ℕ) = 2 ^ 1 := rfl
      _ ≤ 2 ^ bits := Nat.pow_le_pow_right (by norm_num) h1
  exact_mod_cast h

theorem one_le_pow_cast (bits : ℕ) : (1:ℚ) ≤ ((2 ^ bits : ℕ) : ℚ) := by
  exact_mod_cast Nat.one_le_two_pow

theorem luma_nonneg (r g b : ℕ) : 0 ≤ luma r g b := by
  unfold luma
  positivity

theorem luma_le_255 {r g b : ℕ} (hr : r ≤ 255) (hg : g ≤ 255) (hb : b ≤ 255) :
    luma r g b ≤ 255 := by
  unfold luma
  have h1 : (r:ℚ) ≤ 255 := by exact_mod_cast hr
  have h2 : (g:ℚ) ≤ 255 := by exact_mod_cast hg
  have h3 : (b:ℚ) ≤ 255 := by exact_mod_cast hb
  have n1 : (0.299 : ℚ) = 299/1000 := by norm_num
  have n2 : (0.587 : ℚ) = 587/1000 := by norm_num
  have n3 : (0.114 : ℚ) = 114/1000 := by norm_num
  rw [n1, n2, n3]
  linarith

/-- The luma of a gray pixel is exactly its byte value: the three
weights sum to one. -/
theorem luma_gray (v : ℕ) : luma v v v = (v : ℚ) := by
  unfold luma
  have n1 : (0.299 : ℚ) = 299/1000 := by norm_num
  have n2 : (0.587 : ℚ) = 587/1000 := by norm_num
  have n3 : (0.114 : ℚ) = 114/1000 := by norm_num
  rw [n1, n2, n3]
  ring

theorem stepArg_nonneg (bits r g b : ℕ) :
    0 ≤ luma r g b / 255 * (((2 ^ bits : ℕ) : ℚ) - 1) := by
  apply mul_nonneg (div_nonneg (luma_nonneg r g b) (by norm_num))
  have := one_le_pow_cast bits
  linarith

theorem stepArg_le (bits r g b : ℕ) (hr : r ≤ 255) (hg : g ≤ 255) (hb : b ≤ 255) :
    luma r g b / 255 * (((2 ^ bits : ℕ) : ℚ) - 1) ≤ ((2 ^ bits : ℕ) : ℚ) - 1 := by
  have h1 : luma r g b / 255 ≤ 1 := by
    rw [div_le_one (by norm_num : (0:ℚ) < 255)]
    exact luma_le_255 hr hg hb
  have h2 : (0:ℚ) ≤ ((2 ^ bits : ℕ) : ℚ) - 1 := by
    have := one_le_pow_cast bits
    linarith
  calc luma r g b / 255 * (((2 ^ bits : ℕ) : ℚ) - 1)
      ≤ 1 * (((2 ^ bits : ℕ) : ℚ) - 1) := mul_le_mul_of_nonneg_right h1 h2
    _ = ((2 ^ bits : ℕ) : ℚ) - 1 := one_mul _

theorem step_nonneg (bits r g b : ℕ) :
    0 ≤ rndNE (luma r g b / 255 * (((2 ^ bits : ℕ) : ℚ) - 1)) :=
  rndNE_nonneg (stepArg_nonneg bits r g b)

theorem step_le (bits r g b : ℕ) (hr : r ≤ 255) (hg : g ≤ 255) (hb : b ≤ 255) :
    rndNE (luma r g b / 255 * (((2 ^ bits : ℕ) : ℚ) - 1)) ≤ (2 ^ bits : ℤ) - 1 := by
  apply rndNE_le_of_le
  calc luma r g b / 255 * (((2 ^ bits : ℕ) : ℚ) - 1)
      ≤ ((2 ^ bits : ℕ) : ℚ) - 1 := stepArg_le bits r g b hr hg hb
    _ = (((2 ^ bits : ℤ) - 1 : ℤ) : ℚ) := by push_cast; ring

/-- For at least one bit, the quantizer value is the floor of the
rescaled step, with the defensive `% 256` of the byte cast never
acting. -/
theorem quantizePixel_floor (bits r g b : ℕ) (h1 : 1 ≤ bits)
    (hr : r ≤ 255) (hg : g ≤ 255) (hb : b ≤ 255) :
    quantizePixel bits r g b =
      Int.toNat ⌊(rndNE (luma r g b / 255 * (((2 ^ bits : ℕ) : ℚ) - 1)) : ℚ)
        * (255 / (((2 ^ bits : ℕ) : ℚ) - 1))⌋ := by
  have hD1 : (1:ℚ) ≤ ((2 ^ bits : ℕ) : ℚ) - 1 := by
    have := two_le_pow_cast h1
    linarith
  have hD0 : (0:ℚ) < ((2 ^ bits : ℕ) : ℚ) - 1 := by linarith
  have hs0 : (0:ℚ) ≤ (rndNE (luma r g b / 255 * (((2 ^ bits : ℕ) : ℚ) - 1)) : ℚ) := by
    exact_mod_cast step_nonneg bits r g b
  have hsle : (rndNE (luma r g b / 255 * (((2 ^ bits : ℕ) : ℚ) - 1)) : ℚ)
      ≤ ((2 ^ bits : ℕ) : ℚ) - 1 := by
    have := step_le bits r g b hr hg hb
    have hcast : ((rndNE (luma r g b / 255 * (((2 ^ bits : ℕ) : ℚ) - 1)) : ℤ) : ℚ)
        ≤ (((2 ^ bits : ℤ) - 1 : ℤ) : ℚ) := by exact_mod_cast this
    calc (rndNE (luma r g b / 255 * (((2 ^ bits : ℕ) : ℚ) - 1)) : ℚ)
        ≤ (((2 ^ bits : ℤ) - 1 : ℤ) : ℚ) := hcast
      _ = ((2 ^ bits : ℕ) : ℚ) - 1 := by push_cast; ring
  have hq0 : (0:ℚ) ≤ (rndNE (luma r g b / 255 * (((2 ^ bits : ℕ) : ℚ) - 1)) : ℚ)
      * (255 / (((2 ^ bits : ℕ) : ℚ) - 1)) := by
    apply mul_nonneg hs0
    positivity
  have hq255 : (rndNE (luma r g b / 255 * (((2 ^ bits : ℕ) : ℚ) - 1)) : ℚ)
      * (255 / (((2 ^ bits : ℕ) : ℚ) - 1)) ≤ 255 := by
    calc (rndNE (luma r g b / 255 * (((2 ^ bits : ℕ) : ℚ) - 1)) : ℚ)
        * (255 / (((2 ^ bits : ℕ) : ℚ) - 1))
        ≤ (((2 ^ bits : ℕ) : ℚ) - 1) * (255 / (((2 ^ bits : ℕ) : ℚ) - 1)) := by
          apply mul_le_mul_of_nonneg_right hsle
          positivity
      _ = 255 := by rw [mul_comm]; exact div_mul_cancel₀ 255 hD0.ne'
  have hfl255 : ⌊(rndNE (luma r g b / 255 * (((2 ^ bits : ℕ) : ℚ) - 1)) : ℚ)
      * (255 / (((2 ^ bits : ℕ) : ℚ) - 1))⌋ ≤ 255 := by
    have h255 : ((255 : ℤ) : ℚ) = 255 := by norm_num
    have := Int.floor_le_floor (le_trans hq255 (le_of_eq h255.symm))
    rwa [Int.floor_intCast] at this
  simp only [quantizePixel]
  rw [truncQ, if_pos hq0]
  apply Nat.mod_eq_of_lt
  have := Int.toNat_le.2 hfl255
  omega

theorem quantizePixel_le_255 (bits r g b : ℕ) (h1 : 1 ≤ bits)
    (hr : r ≤ 255) (hg : g ≤ 255) (hb : b ≤ 255) :
    quantizePixel bits r g b ≤ 255 := by
  rw [quantizePixel_floor bits r g b h1 hr hg hb]
  have hD1 : (1:ℚ) ≤ ((2 ^ bits : ℕ) : ℚ) - 1 := by
    have := two_le_pow_cast h1
    linarith
  have hD0 : (0:ℚ) < ((2 ^ bits : ℕ) : ℚ) - 1 := by linarith
  have hsle : (rndNE (luma r g b / 255 * (((2 ^ bits : ℕ) : ℚ) - 1)) : ℚ)
      ≤ ((2 ^ bits : ℕ) : ℚ) - 1 := by
    have := step_le bits r g b hr hg hb
    have hcast : ((rndNE (luma r g b / 255 * (((2 ^ bits : ℕ) : ℚ) - 1)) : ℤ) : ℚ)
        ≤ (((2 ^ bits : ℤ) - 1 : ℤ) : ℚ) := by exact_mod_cast this
    calc (rndNE (luma r g b / 255 * (((2 ^ bits : ℕ) : ℚ) - 1)) : ℚ)
        ≤ (((2 ^ bits : ℤ) - 1 : ℤ) : ℚ) := hcast
      _ = ((2 ^ bits : ℕ) : ℚ) - 1 := by push_cast; ring
  have hq255 : (rndNE (luma r g b / 255 * (((2 ^ bits : ℕ) : ℚ) - 1)) : ℚ)
      * (255 / (((2 ^ bits : ℕ) : ℚ) - 1)) ≤ 255 := by
    calc (rndNE (luma r g b / 255 * (((2 ^ bits : ℕ) : ℚ) - 1)) : ℚ)
        * (255 / (((2 ^ bits : ℕ) : ℚ) - 1))
        ≤ (((2 ^ bits : ℕ) : ℚ) - 1) * (255 / (((2 ^ bits : ℕ) : ℚ) - 1)) := by
          apply mul_le_mul_of_nonneg_right hsle
          positivity
      _ = 255 := by rw [mul_comm]; exact div_mul_cancel₀ 255 hD0.ne'
  have hfl255 : ⌊(rndNE (luma r g b / 255 * (((2 ^ bits : ℕ) : ℚ) - 1)) : ℚ)
      * (255 / (((2 ^ bits : ℕ) : ℚ) - 1))⌋ ≤ 255 := by
    have h255 : ((255 : ℤ) : ℚ) = 255 := by norm_num
    have := Int.floor_le_floor (le_trans hq255 (le_of_eq h255.symm))
    rwa [Int.floor_intCast] at this
  exact Int.toNat_le.2 hfl255

/-- Error-bound core: one quantize-rescale-floor pass moves a
nonnegative input by at most `255 / D`.  `D ≤ 127 ∨ D = 255` covers the
level counts reachable from `bits ∈ [1, 8]`. -/
theorem err_core (lum D : ℚ)
    (hD1 : 1 ≤ D) (hcase : D ≤ 127 ∨ D = 255) :
    |(⌊(rndNE (lum / 255 * D) : ℚ) * (255 / D)⌋ : ℚ) - lum| ≤ 255 / D := by
  have hD0 : (0:ℚ) < D := by linarith
  have hs_lo := le_rndNE (lum / 255 * D)
  have hs_hi := rndNE_le (lum / 255 * D)
  set s : ℤ := rndNE (lum / 255 * D) with hs
  set q : ℚ := (s:ℚ) * (255 / D) with hq
  have hlum : (lum / 255 * D) * (255 / D) = lum := by field_simp
  have hfl_le : (⌊q⌋:ℚ) ≤ q := Int.floor_le q
  have hfl_gt : q - 1 < (⌊q⌋:ℚ) := by
    have := Int.lt_floor_add_one q
    linarith
  have hpos : (0:ℚ) < 255 / D := by positivity
  have hqe : q - lum = ((s:ℚ) - lum / 255 * D) * (255 / D) := by
    rw [sub_mul, hlum, hq]
  have herr_hi : q - lum ≤ (1/2) * (255 / D) := by
    rw [hqe]
    apply mul_le_mul_of_nonneg_right _ (le_of_lt hpos)
    linarith
  have herr_lo : -((1/2) * (255 / D)) ≤ q - lum := by
    rw [hqe]
    have h1' : -(1/2 : ℚ) ≤ (s:ℚ) - lum / 255 * D := by linarith
    have := mul_le_mul_of_nonneg_right h1' (le_of_lt hpos)
    linarith
  rw [abs_le]
  refine ⟨?_, by linarith⟩
  rcases hcase with h127 | h255D
  · have h2 : (2:ℚ) ≤ 255 / D := by
      rw [le_div_iff₀ hD0]
      linarith
    linarith
  · subst h255D
    have hq1 : q = (s:ℚ) := by
      rw [hq]
      norm_num
    have harg : lum / 255 * 255 = lum := div_mul_cancel₀ _ (by norm_num)
    have hflq : (⌊q⌋:ℚ) = (s:ℚ) := by
      rw [hq1]
      exact_mod_cast Int.floor_intCast s
    rw [hflq, harg] at *
    rw [harg] at hs_lo
    norm_num
    linarith

/-- Worst-case quantization error of one pixel is at most the level
spacing `255 / (2 ^ bits - 1)`. -/
theorem quantize_err_bound (bits r g b : ℕ) (h1 : 1 ≤ bits) (h8 : bits ≤ 8)
    (hr : r ≤ 255) (hg : g ≤ 255) (hb : b ≤ 255) :
    |(quantizePixel bits r g b : ℚ) - luma r g b|
      ≤ 255 / (((2 ^ bits : ℕ) : ℚ) - 1) := by
  have hD1 : (1:ℚ) ≤ ((2 ^ bits : ℕ) : ℚ) - 1 := by
    have := two_le_pow_cast h1
    linarith
  have hq0 : (0:ℚ) ≤ (rndNE (luma r g b / 255 * (((2 ^ bits : ℕ) : ℚ) - 1)) : ℚ)
      * (255 / (((2 ^ bits : ℕ) : ℚ) - 1)) := by
    apply mul_nonneg _ (by positivity)
    exact_mod_cast step_nonneg bits r g b
  have hcast : ((quantizePixel bits r g b : ℕ) : ℚ)
      = (⌊(rndNE (luma r g b / 255 * (((2 ^ bits : ℕ) : ℚ) - 1)) : ℚ)
          * (255 / (((2 ^ bits : ℕ) : ℚ) - 1))⌋ : ℚ) := by
    rw [quantizePixel_floor bits r g b h1 hr hg hb]
    exact_mod_cast Int.toNat_of_nonneg (Int.floor_nonneg.2 hq0)
  rw [hcast]
  apply err_core _ _ hD1
  by_cases h87 : bits ≤ 7
  · left
    have hn : (2 ^ bits : ℕ) ≤ 128 := by
      calc (2 ^ bits : ℕ) ≤ 2 ^ 7 := Nat.pow_le_pow_right (by norm_num) h87
        _ = 128 := by norm_num
    have : ((2 ^ bits : ℕ) : ℚ) ≤ 128 := by exact_mod_cast hn
    linarith
  · right
    have hb8 : bits = 8 := by omega
    subst hb8
    norm_num

/-- Flooring the rescale of a nonnegative integer step is the natural
division `255 * k / d`. -/
theorem toNat_floor_mul_div (s : ℤ) (d : ℕ) (hs0 : 0 ≤ s) :
    Int.toNat ⌊(s : ℚ) * (255 / (d : ℚ))⌋ = 255 * s.toNat / d := by
  have hsnat : ((s.toNat : ℕ) : ℚ) = (s : ℚ) := by
    exact_mod_cast Int.toNat_of_nonneg hs0
  have hinner : (s : ℚ) * (255 / (d : ℚ)) = ((s.toNat * 255 : ℕ) : ℚ) / (d : ℚ) := by
    rw [← hsnat]
    push_cast
    ring
  rw [hinner, Rat.floor_natCast_div_natCast, ← Int.natCast_div, Int.toNat_natCast,
    Nat.mul_comm s.toNat 255]

/-- Every quantized value is a reconstructed level
`255 * k / (2 ^ bits - 1)` for some step index `k < 2 ^ bits`. -/
theorem quantizePixel_exists_k (bits r g b : ℕ) (h1 : 1 ≤ bits)
    (hr : r ≤ 255) (hg : g ≤ 255) (hb : b ≤ 255) :
    ∃ k : ℕ, k < 2 ^ bits ∧
      quantizePixel bits r g b = 255 * k / (2 ^ bits - 1) := by
  have hL : 1 ≤ 2 ^ bits := Nat.one_le_two_pow
  have hs0 : 0 ≤ rndNE (luma r g b / 255 * (((2 ^ bits : ℕ) : ℚ) - 1)) :=
    step_nonneg bits r g b
  have hsle := step_le bits r g b hr hg hb
  have hpow : ((2:ℤ) ^ bits) = ((2 ^ bits : ℕ) : ℤ) := by push_cast; ring
  refine ⟨(rndNE (luma r g b / 255 * (((2 ^ bits : ℕ) : ℚ) - 1))).toNat, ?_, ?_⟩
  · rw [hpow] at hsle
    omega
  · rw [quantizePixel_floor bits r g b h1 hr hg hb]
    have hcast : ((2 ^ bits : ℕ) : ℚ) - 1 = ((2 ^ bits - 1 : ℕ) : ℚ) := by
      rw [Nat.cast_sub hL]
      norm_num
    rw [hcast] at hs0 ⊢
    exact toNat_floor_mul_div _ _ hs0

set_option maxRecDepth 10000 in
/-- Exhaustive check: at eight bits the integer mirror fixes every
gray byte value. -/
theorem requant8_fixed : ∀ v, v < 256 → quantizePixelZ 8 v v v = v := by decide

set_option maxRecDepth 10000 in
/-- Exhaustive check: for every usable bit depth, every reconstructed
level value re-quantizes to itself in the integer mirror. -/
theorem requant_fixed : ∀ bits, bits < 9 → 1 ≤ bits → ∀ k, k < 2 ^ bits →
    quantizePixelZ bits (255 * k / (2 ^ bits - 1)) (255 * k / (2 ^ bits - 1))
      (255 * k / (2 ^ bits - 1)) = 255 * k / (2 ^ bits - 1) := by decide

/-- Auxiliary range facts for the rescaled step value. -/
theorem q_nonneg (bits r g b : ℕ) :
    (0:ℚ) ≤ (rndNE (luma r g b / 255 * (((2 ^ bits : ℕ) : ℚ) - 1)) : ℚ)
      * (255 / (((2 ^ bits : ℕ) : ℚ) - 1)) := by
  apply mul_nonneg
  · exact_mod_cast step_nonneg bits r g b
  · apply div_nonneg (by norm_num)
    have := one_le_pow_cast bits
    linarith

theorem q_le_255 (bits r g b : ℕ) (h1 : 1 ≤ bits)
    (hr : r ≤ 255) (hg : g ≤ 255) (hb : b ≤ 255) :
    (rndNE (luma r g b / 255 * (((2 ^ bits : ℕ) : ℚ) - 1)) : ℚ)
      * (255 / (((2 ^ bits : ℕ) : ℚ) - 1)) ≤ 255 := by
  have hD1 : (1:ℚ) ≤ ((2 ^ bits : ℕ) : ℚ) - 1 := by
    have := two_le_pow_cast h1
    linarith
  have hD0 : (0:ℚ) < ((2 ^ bits : ℕ) : ℚ) - 1 := by linarith
  have hsle : (rndNE (luma r g b / 255 * (((2 ^ bits : ℕ) : ℚ) - 1)) : ℚ)
      ≤ ((2 ^ bits : ℕ) : ℚ) - 1 := by
    have h := step_le bits r g b hr hg hb
    have hcast : ((rndNE (luma r g b / 255 * (((2 ^ bits : ℕ) : ℚ) - 1)) : ℤ) : ℚ)
        ≤ (((2 ^ bits : ℤ) - 1 : ℤ) : ℚ) := by exact_mod_cast h
    calc (rndNE (luma r g b / 255 * (((2 ^ bits : ℕ) : ℚ) - 1)) : ℚ)
        ≤ (((2 ^ bits : ℤ) - 1 : ℤ) : ℚ) := hcast
      _ = ((2 ^ bits : ℕ) : ℚ) - 1 := by push_cast; ring
  calc (rndNE (luma r g b / 255 * (((2 ^ bits : ℕ) : ℚ) - 1)) : ℚ)
      * (255 / (((2 ^ bits : ℕ) : ℚ) - 1))
      ≤ (((2 ^ bits : ℕ) : ℚ) - 1) * (255 / (((2 ^ bits : ℕ) : ℚ) - 1)) := by
        apply mul_le_mul_of_nonneg_right hsle
        positivity
    _ = 255 := by rw [mul_comm]; exact div_mul_cancel₀ 255 hD0.ne'

/-! ### The claims -/

/-- Claim C1, counterexample: at bits 7 the gray pixel 128 quantizes to
128 in the code (truncation), while the claim's formula, which rounds
the rescaled value, yields 129. -/
theorem claim1_counterexample :
    quantizePixel 7 128 128 128 = 128 ∧ quantizeClaimRounded 7 128 128 128 = 129 := by
  constructor
  · rw [quantizePixel_eq_Z 7 128 128 128 (by norm_num)]
    decide
  · simp only [quantizeClaimRounded]
    rw [luma_gray 128]
    have harg : ((128:ℕ):ℚ) / 255 * (((2 ^ 7 : ℕ) : ℚ) - 1)
        = ((16256 : ℤ) : ℚ) / ((255 : ℕ) : ℚ) := by
      push_cast
      norm_num
    rw [harg, rndNE_intCast_div_natCast 16256 255 (by norm_num)]
    have h64 : rndNEInt 16256 255 = 64 := by decide
    rw [h64]
    have hinner : ((64 : ℤ) : ℚ) * (255 / (((2 ^ 7 : ℕ) : ℚ) - 1))
        = ((16320 : ℤ) : ℚ) / ((127 : ℕ) : ℚ) := by
      push_cast
      norm_num
    rw [hinner, rndNE_intCast_div_natCast 16320 127 (by norm_num)]
    decide

/-- Claim C1, amended: for every RGB pixel with channels in `[0,255]`
and bits in `[1,8]`, the output byte equals the step
`round-half-even(luma / 255 * (levels - 1))` rescaled by
`255 / (levels - 1)` and then TRUNCATED (not rounded) to an integer
byte; the value always lies in `[0,255]`, so the clamp never acts. -/
theorem claim1_amended : ∀ bits r g b : ℕ, 1 ≤ bits → bits ≤ 8 →
    r ≤ 255 → g ≤ 255 → b ≤ 255 →
    quantizePixel bits r g b = quantizeClaimTrunc bits r g b := by
  intro bits r g b h1 h8 hr hg hb
  have hfl := quantizePixel_floor bits r g b h1 hr hg hb
  have hq0 := q_nonneg bits r g b
  have hq255 := q_le_255 bits r g b h1 hr hg hb
  have h0 : 0 ≤ ⌊(rndNE (luma r g b / 255 * (((2 ^ bits : ℕ) : ℚ) - 1)) : ℚ)
      * (255 / (((2 ^ bits : ℕ) : ℚ) - 1))⌋ := Int.floor_nonneg.2 hq0
  have h255 : ⌊(rndNE (luma r g b / 255 * (((2 ^ bits : ℕ) : ℚ) - 1)) : ℚ)
      * (255 / (((2 ^ bits : ℕ) : ℚ) - 1))⌋ ≤ 255 := by
    have hc : ((255 : ℤ) : ℚ) = 255 := by norm_num
    have := Int.floor_le_floor (le_trans hq255 (le_of_eq hc.symm))
    rwa [Int.floor_intCast] at this
  simp only [quantizeClaimTrunc]
  rw [hfl, truncQ, if_pos hq0, min_eq_right h255, max_eq_right h0]

/-- Claim C1, witness of the amended theorem at a concrete pixel. -/
theorem claim1_witness : quantizePixel 4 1 2 3 = quantizeClaimTrunc 4 1 2 3 :=
  claim1_amended 4 1 2 3 (by norm_num) (by norm_num) (by norm_num) (by norm_num)
    (by norm_num)

/-- Claim C2: unpack reads, for each row, exactly the bytes
`[r*stride, r*stride + width*channels)`, drops padding and alpha, and
yields exactly `height*width*3` bytes; the two concrete examples of the
spec hold. -/
theorem claim2_unpack :
    (∀ (raw : List ℕ) (w h s ch : ℕ), h * s ≤ raw.length → w * ch ≤ s →
      (ch = 3 ∨ ch = 4) →
      (unpack raw w h s ch).length = h * w * 3 ∧
      ∀ r c k : ℕ, r < h → c < w → k < 3 →
        (unpack raw w h s ch)[(r * w + c) * 3 + k]? = raw[r * s + c * ch + k]?)
    ∧ unpack [10,20,30,40,50,60,0,0] 2 1 8 3 = [10,20,30,40,50,60]
    ∧ unpack [10,20,30,255] 1 1 4 4 = [10,20,30] := by
  refine ⟨?_, by decide, by decide⟩
  intro raw w h s ch hraw hws hch
  exact ⟨unpack_length raw w h s ch hraw hws hch,
    fun r c k hr hc hk => unpack_getElem? raw w h s ch r c k hraw hws hch hr hc hk⟩

/-- Claim C2, witness at the spec's padding example. -/
theorem claim2_witness :
    (unpack [10,20,30,40,50,60,0,0] 2 1 8 3).length = 1 * 2 * 3 ∧
    (unpack [10,20,30,40,50,60,0,0] 2 1 8 3)[(0 * 2 + 1) * 3 + 2]?
      = [10,20,30,40,50,60,0,0][0 * 8 + 1 * 3 + 2]? :=
  ⟨(claim2_unpack.1 [10,20,30,40,50,60,0,0] 2 1 8 3 (by decide) (by decide)
      (Or.inl rfl)).1,
   (claim2_unpack.1 [10,20,30,40,50,60,0,0] 2 1 8 3 (by decide) (by decide)
      (Or.inl rfl)).2 0 1 2 (by decide) (by decide) (by decide)⟩

/-- Claim C3: at eight bits the rescale cancels, so the output is the
half-even rounding of the luma; a pure red pixel yields 76. -/
theorem claim3_bits8_round (r g b : ℕ) (hr : r ≤ 255) (hg : g ≤ 255)
    (hb : b ≤ 255) :
    quantizePixel 8 r g b = Int.toNat (rndNE (luma r g b)) ∧
    quantizePixel 8 255 0 0 = 76 := by
  constructor
  · rw [quantizePixel_floor 8 r g b (by norm_num) hr hg hb]
    have h256 : ((2 ^ 8 : ℕ) : ℚ) = 256 := by norm_num
    rw [h256]
    have harg : luma r g b / 255 * ((256:ℚ) - 1) = luma r g b := by
      rw [show (256:ℚ) - 1 = 255 by norm_num]
      exact div_mul_cancel₀ _ (by norm_num)
    rw [harg, show (255:ℚ) / ((256:ℚ) - 1) = 1 by norm_num, mul_one,
      Int.floor_intCast]
  · rw [quantizePixel_eq_Z 8 255 0 0 (by norm_num)]
    decide

/-- Claim C3, witness at a concrete pixel. -/
theorem claim3_witness :
    quantizePixel 8 200 100 50 = Int.toNat (rndNE (luma 200 100 50)) ∧
    quantizePixel 8 255 0 0 = 76 :=
  claim3_bits8_round 200 100 50 (by norm_num) (by norm_num) (by norm_num)

/-- Claim C4, counterexample: for the gray pixel 85 the quantization
error grows from 0 at two bits to 13 at three bits, so the pointwise
error is not monotone in the bit depth. -/
theorem claim4_counterexample :
    ¬(|((quantizePixel 3 85 85 85 : ℕ) : ℚ) - luma 85 85 85|
      ≤ |((quantizePixel 2 85 85 85 : ℕ) : ℚ) - luma 85 85 85|) := by
  have h3 : quantizePixel 3 85 85 85 = 72 := by
    rw [quantizePixel_eq_Z 3 85 85 85 (by norm_num)]
    decide
  have h2 : quantizePixel 2 85 85 85 = 85 := by
    rw [quantizePixel_eq_Z 2 85 85 85 (by norm_num)]
    decide
  rw [h3, h2, luma_gray 85]
  push_cast
  rw [show (72:ℚ) - 85 = -(13:ℚ) by norm_num, show (85:ℚ) - 85 = (0:ℚ) by norm_num,
    abs_neg, abs_zero, abs_of_nonneg (by norm_num : (0:ℚ) ≤ 13)]
  norm_num

/-- Claim C4, amended: the quantization error of any pixel is bounded
by the level spacing `255 / (2 ^ bits - 1)`, and this bound strictly
decreases as the bit depth increases; the pointwise error itself need
not decrease. -/
theorem claim4_amended : ∀ r g b b1 b2 : ℕ, r ≤ 255 → g ≤ 255 → b ≤ 255 →
    1 ≤ b1 → b1 < b2 → b2 ≤ 8 →
    |((quantizePixel b2 r g b : ℕ) : ℚ) - luma r g b|
      ≤ 255 / (((2 ^ b2 : ℕ) : ℚ) - 1)
    ∧ 255 / (((2 ^ b2 : ℕ) : ℚ) - 1) < 255 / (((2 ^ b1 : ℕ) : ℚ) - 1) := by
  intro r g b b1 b2 hr hg hb h1 hlt h8
  refine ⟨quantize_err_bound b2 r g b (by omega) h8 hr hg hb, ?_⟩
  have hp1 : (2:ℚ) ≤ ((2 ^ b1 : ℕ) : ℚ) := two_le_pow_cast h1
  have hplt : ((2 ^ b1 : ℕ) : ℚ) < ((2 ^ b2 : ℕ) : ℚ) := by
    have h := Nat.pow_lt_pow_right (by norm_num : 1 < 2) hlt
    exact_mod_cast h
  apply div_lt_div_of_pos_left (by norm_num) (by linarith) (by linarith)

/-- Claim C4, witness of the amended theorem at the gray pixel 85. -/
theorem claim4_witness :
    |((quantizePixel 3 85 85 85 : ℕ) : ℚ) - luma 85 85 85|
      ≤ 255 / (((2 ^ 3 : ℕ) : ℚ) - 1)
    ∧ 255 / (((2 ^ 3 : ℕ) : ℚ) - 1) < 255 / (((2 ^ 2 : ℕ) : ℚ) - 1) :=
  claim4_amended 85 85 85 2 3 (by norm_num) (by norm_num) (by norm_num)
    (by norm_num) (by norm_num) (by norm_num)

/-- Claim C5: at eight bits the quantizer is idempotent — feeding a
bits-8 output value back as a gray pixel returns it unchanged. -/
theorem claim5_idem8 (r g b : ℕ) (hr : r ≤ 255) (hg : g ≤ 255) (hb : b ≤ 255) :
    quantizePixel 8 (quantizePixel 8 r g b) (quantizePixel 8 r g b)
      (quantizePixel 8 r g b) = quantizePixel 8 r g b := by
  have hv : quantizePixel 8 r g b ≤ 255 :=
    quantizePixel_le_255 8 r g b (by norm_num) hr hg hb
  rw [quantizePixel_eq_Z 8 (quantizePixel 8 r g b) (quantizePixel 8 r g b)
    (quantizePixel 8 r g b) (by norm_num)]
  exact requant8_fixed _ (by omega)

/-- Claim C5, witness at a concrete pixel. -/
theorem claim5_witness :
    quantizePixel 8 (quantizePixel 8 12 200 34) (quantizePixel 8 12 200 34)
      (quantizePixel 8 12 200 34) = quantizePixel 8 12 200 34 :=
  claim5_idem8 12 200 34 (by norm_num) (by norm_num) (by norm_num)

/-- Claim C6: at one bit every output byte is 0 or 255, and for bits in
`[1,8]` the level count is never 1, so the spec's defensive `levels == 1`
special case (absent from the code) would be unreachable. -/
theorem claim6_binary :
    (∀ r g b : ℕ, r ≤ 255 → g ≤ 255 → b ≤ 255 →
      quantizePixel 1 r g b = 0 ∨ quantizePixel 1 r g b = 255)
    ∧ (∀ bits : ℕ, 1 ≤ bits → bits ≤ 8 →
        2 ^ bits ≠ 1 ∧ ∀ r g b : ℕ, quantizeGuarded bits r g b = quantizePixel bits r g b) := by
  constructor
  · intro r g b hr hg hb
    rw [quantizePixel_floor 1 r g b (by norm_num) hr hg hb]
    have hs0 := step_nonneg 1 r g b
    have hs1 := step_le 1 r g b hr hg hb
    rw [show ((2:ℤ) ^ 1) - 1 = 1 by norm_num] at hs1
    have hcases : rndNE (luma r g b / 255 * (((2 ^ 1 : ℕ) : ℚ) - 1)) = 0
        ∨ rndNE (luma r g b / 255 * (((2 ^ 1 : ℕ) : ℚ) - 1)) = 1 := by omega
    rcases hcases with h | h <;> rw [h]
    · left
      norm_num
    · right
      norm_num
      decide
  · intro bits h1 h8
    have h2 : 2 ≤ 2 ^ bits := by
      calc (2:ℕ) = 2 ^ 1 := rfl
        _ ≤ 2 ^ bits := Nat.pow_le_pow_right (by norm_num) h1
    refine ⟨by omega, ?_⟩
    intro r g b
    simp only [quantizeGuarded]
    rw [if_neg (by omega)]

/-- Claim C6, witness at concrete inputs. -/
theorem claim6_witness :
    (quantizePixel 1 10 20 30 = 0 ∨ quantizePixel 1 10 20 30 = 255) ∧ 2 ^ 8 ≠ 1 :=
  ⟨claim6_binary.1 10 20 30 (by norm_num) (by norm_num) (by norm_num),
   (claim6_binary.2 8 (by norm_num) (by norm_num)).1⟩

/-- Claim C7, counterexample: for the out-of-range bit depth 9 the
quantizer still produces a grayscale buffer — there is no
`InvalidBitDepth` failure path anywhere in the code. -/
theorem claim7_counterexample : quantizeImage 9 [(0, 0, 0)] = [0] := by
  simp only [quantizeImage, List.map_cons, List.map_nil]
  rw [quantizePixel_eq_Z 9 0 0 0 (by norm_num)]
  decide

/-- Claim C7, amended: the quantizer performs no bit-depth validation
and has no `InvalidBitDepth` failure path — for every positive bits
value, in particular every out-of-range `bits ≥ 9`, it returns a buffer
with one byte per input pixel (at `bits = 0` the source instead raises
a `ZeroDivisionError`, still not `InvalidBitDepth`); the range `[1,8]`
is enforced only by the UI slider (minimum 1, maximum 8). -/
theorem claim7_amended : ∀ (bits : ℕ) (pixels : List (ℕ × ℕ × ℕ)), 1 ≤ bits →
    (quantizeImage bits pixels).length = pixels.length := by
  intro bits pixels h1
  simp [quantizeImage]

/-- Claim C7, witness of the amended theorem at the out-of-range bit
depth 9. -/
theorem claim7_witness :
    (quantizeImage 9 [(0, 0, 0), (255, 255, 255)]).length
      = [((0 : ℕ), (0 : ℕ), (0 : ℕ)), (255, 255, 255)].length :=
  claim7_amended 9 [(0, 0, 0), (255, 255, 255)] (by norm_num)

/-- Claim C8: a zero width or zero height yields an empty unpacked
buffer, not an error. -/
theorem claim8_empty : ∀ (raw : List ℕ) (w h s ch : ℕ),
    h * s ≤ raw.length → w * ch ≤ s → (ch = 3 ∨ ch = 4) → (w = 0 ∨ h = 0) →
    unpack raw w h s ch = [] := by
  intro raw w h s ch hraw hws hch hwh
  apply List.eq_nil_of_length_eq_zero
  rw [unpack_length raw w h s ch hraw hws hch]
  rcases hwh with hw | hh
  · subst hw
    simp
  · subst hh
    simp

/-- Claim C8, witness at a concrete degenerate image. -/
theorem claim8_witness : unpack [1, 2, 3] 0 1 3 3 = [] :=
  claim8_empty [1, 2, 3] 0 1 3 3 (by decide) (by decide) (Or.inl rfl) (Or.inl rfl)

/-- Claim C9: when the decode fails, `load_image` warns the user and
leaves the previously loaded image, grayscale buffer, and file path all
unchanged — no state field is assigned before the decode succeeds. -/
theorem claim9_load_failure (st : AppState) (path : String) :
    (loadImage st path none).1.original_image = st.original_image ∧
    (loadImage st path none).1.gray_image = st.gray_image ∧
    (loadImage st path none).1.file_path = st.file_path ∧
    (loadImage st path none).2 = true :=
  ⟨rfl, rfl, rfl, rfl⟩

/-- Claim C10: for every bit depth in `[1,8]` the quantizer is
idempotent on its own outputs — re-quantizing any output value as a
gray pixel returns it unchanged. -/
theorem claim10_idem_all (bits r g b : ℕ) (h1 : 1 ≤ bits) (h8 : bits ≤ 8)
    (hr : r ≤ 255) (hg : g ≤ 255) (hb : b ≤ 255) :
    quantizePixel bits (quantizePixel bits r g b) (quantizePixel bits r g b)
      (quantizePixel bits r g b) = quantizePixel bits r g b := by
  obtain ⟨k, hk, hform⟩ := quantizePixel_exists_k bits r g b h1 hr hg hb
  rw [hform]
  rw [quantizePixel_eq_Z bits (255 * k / (2 ^ bits - 1)) (255 * k / (2 ^ bits - 1))
    (255 * k / (2 ^ bits - 1)) h1]
  exact requant_fixed bits (by omega) h1 k hk

/-- Claim C10, witness at a concrete pixel and bit depth. -/
theorem claim10_witness :
    quantizePixel 5 (quantizePixel 5 7 99 201) (quantizePixel 5 7 99 201)
      (quantizePixel 5 7 99 201) = quantizePixel 5 7 99 201 :=
  claim10_idem_all 5 7 99 201 (by norm_num) (by norm_num) (by norm_num)
    (by norm_num) (by norm_num)

end GrayInv
